import Mathlib

/-!
Verification of the flow pipeline in src/flows/glow.py: the invertible
1x1 convolution (InvertibleConv1x1) and the Glow composition engine.
Tensors are modelled over the reals; torch library calls (lu_solve,
matmul, view) are modelled by their documented semantics.
-/

namespace GlowSpec

/-! ## Triangular masks (InvertibleConv1x1.__init__, lines 29-32)

L_mask = np.tril(ones, k=-1) selects the strictly lower triangle;
U_mask = L_mask.T selects the strictly upper triangle. -/

/-- Strictly lower triangular mask: entry (i, j) is 1 when j < i, else 0. -/
def lMask (C : ℕ) : Matrix (Fin C) (Fin C) ℝ :=
  Matrix.of fun i j => if (j : ℕ) < (i : ℕ) then 1 else 0

/-- Strictly upper triangular mask, the transpose of lMask. -/
def uMask (C : ℕ) : Matrix (Fin C) (Fin C) ℝ :=
  Matrix.of fun i j => if (i : ℕ) < (j : ℕ) then 1 else 0

/-! ## The InvertibleConv1x1 module state

Fields mirror the nn.Parameter fields stored by __init__: the frozen
permutation matrix P, the frozen pivot sequence (modelled as the
permutation it denotes), the trainable triangular factors L and U, the
frozen identity I, the frozen masks, and the diagonal data log_s
(trainable) and sign_s (frozen). -/

structure InvConv1x1 (C : ℕ) where
  P : Matrix (Fin C) (Fin C) ℝ
  pivots : Equiv.Perm (Fin C)
  L : Matrix (Fin C) (Fin C) ℝ
  U : Matrix (Fin C) (Fin C) ℝ
  Ident : Matrix (Fin C) (Fin C) ℝ
  Lmask : Matrix (Fin C) (Fin C) ℝ
  Umask : Matrix (Fin C) (Fin C) ℝ
  logS : Fin C → ℝ
  signS : Fin C → ℝ

variable {C : ℕ}

/-- Well-formedness established by __init__ and never altered afterwards:
P is the permutation matrix unpacked from the stored pivots (torch.lu_unpack),
Ident is the identity, the masks are the two triangular masks, and sign_s,
being the sign of the nonzero diagonal of the factor U of an orthogonal
matrix, is plus or minus one entrywise. -/
def WellFormed (m : InvConv1x1 C) : Prop :=
  m.P = m.pivots.permMatrix ℝ ∧
  m.Ident = 1 ∧
  m.Lmask = lMask C ∧
  m.Umask = uMask C ∧
  (∀ i, m.signS i = 1 ∨ m.signS i = -1)

/-- The reconstructed diagonal sign_s * exp(log_s) (forward, line 42). -/
noncomputable def diagS (m : InvConv1x1 C) : Fin C → ℝ :=
  fun i => m.signS i * Real.exp (m.logS i)

/-- Effective lower factor L = self.L * self.L_mask + self.I (forward, line 41). -/
def effL (m : InvConv1x1 C) : Matrix (Fin C) (Fin C) ℝ :=
  Matrix.of fun i j => m.L i j * m.Lmask i j + m.Ident i j

/-- Effective upper factor U = self.U * self.U_mask + diag(sign_s * exp(log_s))
(forward, line 42). -/
noncomputable def effU (m : InvConv1x1 C) : Matrix (Fin C) (Fin C) ℝ :=
  Matrix.of fun i j => m.U i j * m.Umask i j + Matrix.diagonal (diagS m) i j

/-- The effective weight matrix W = P @ L @ U (forward, line 43). -/
noncomputable def Wmat (m : InvConv1x1 C) : Matrix (Fin C) (Fin C) ℝ :=
  m.P * effL m * effU m

section Triangular

variable (m : InvConv1x1 C)

theorem effL_lower (hm : WellFormed m) :
    (effL m).BlockTriangular OrderDual.toDual := by
  intro i j hij
  have hij' : i < j := hij
  have h1 : ¬ (j : ℕ) < (i : ℕ) := Nat.not_lt.mpr (Fin.le_iff_val_le_val.mp hij'.le)
  have h2 : i ≠ j := ne_of_lt hij'
  simp [effL, hm.2.2.1, lMask, hm.2.1, Matrix.one_apply, h1, h2, not_lt.mpr hij'.le]

theorem effL_diag (hm : WellFormed m) (i : Fin C) : effL m i i = 1 := by
  simp [effL, hm.2.2.1, lMask, hm.2.1, Matrix.one_apply]

theorem effU_upper (hm : WellFormed m) :
    (effU m).BlockTriangular id := by
  intro i j hij
  have hij' : j < i := hij
  have h1 : ¬ (i : ℕ) < (j : ℕ) := Nat.not_lt.mpr (Fin.le_iff_val_le_val.mp hij'.le)
  have h2 : i ≠ j := (ne_of_lt hij').symm
  simp [effU, hm.2.2.2.1, uMask, Matrix.diagonal_apply, h1, h2, not_lt.mpr hij'.le]

theorem effU_diag (hm : WellFormed m) (i : Fin C) : effU m i i = diagS m i := by
  simp [effU, hm.2.2.2.1, uMask, Matrix.diagonal_apply]

theorem diagS_ne_zero (hm : WellFormed m) (i : Fin C) : diagS m i ≠ 0 := by
  have := Real.exp_ne_zero (m.logS i)
  rcases hm.2.2.2.2 i with h | h <;> simp [diagS, h, this]

theorem det_effL (hm : WellFormed m) : (effL m).det = 1 := by
  rw [Matrix.det_of_lowerTriangular _ (effL_lower m hm)]
  simp [effL_diag m hm]

theorem det_effU (hm : WellFormed m) :
    (effU m).det = ∏ i, diagS m i := by
  rw [Matrix.det_of_upperTriangular (effU_upper m hm)]
  exact Finset.prod_congr rfl fun i _ => effU_diag m hm i

theorem abs_det_Wmat (hm : WellFormed m) :
    |(Wmat m).det| = Real.exp (∑ i, m.logS i) := by
  have hdet : (Wmat m).det = (m.pivots.permMatrix ℝ).det * (effL m).det * (effU m).det := by
    rw [Wmat, Matrix.det_mul, Matrix.det_mul, hm.1]
  rw [hdet, det_effL m hm, det_effU m hm, Matrix.det_permutation]
  have hsgn : |((Equiv.Perm.sign m.pivots : ℤ) : ℝ)| = 1 := by
    rcases Int.units_eq_one_or (Equiv.Perm.sign m.pivots) with h | h <;> simp [h]
  rw [abs_mul, abs_mul, hsgn, one_mul, abs_one, one_mul, Finset.abs_prod]
  have habs : ∀ i ∈ Finset.univ, |diagS m i| = Real.exp (m.logS i) := by
    intro i _
    rcases hm.2.2.2.2 i with h | h <;>
      simp [diagS, h, abs_of_pos (Real.exp_pos (m.logS i))]
  rw [Finset.prod_congr rfl habs, ← Real.exp_sum]

end Triangular

/-! ## Triangular solves: the semantics of torch.lu_solve

torch.lu_solve(b, LU, pivots) solves (P L U) x = b where P is the
permutation matrix of the pivots, L is unit lower triangular taken from
the strictly lower part of the packed matrix LU, and U is upper
triangular taken from the upper part including the diagonal. We model it
by forward substitution with the unit lower factor and back substitution
with the upper factor, after undoing the pivot permutation. -/

/-- Forward substitution for a unit lower triangular system: the entry at
row i is b i minus the already-solved prefix, the diagonal being 1. -/
noncomputable def forwardSubstAux (L : Matrix (Fin C) (Fin C) ℝ) (b : Fin C → ℝ)
    (i : ℕ) (hi : i < C) : ℝ :=
  b ⟨i, hi⟩ - ∑ j : Fin C,
    if _h : (j : ℕ) < i then L ⟨i, hi⟩ j * forwardSubstAux L b j.1 j.2 else 0
termination_by i
decreasing_by exact _h

/-- Back substitution for an upper triangular system: the entry at row i is
b i minus the already-solved suffix, divided by the diagonal entry. -/
noncomputable def backSubstAux (U : Matrix (Fin C) (Fin C) ℝ) (b : Fin C → ℝ)
    (i : ℕ) (hi : i < C) : ℝ :=
  (b ⟨i, hi⟩ - ∑ j : Fin C,
    if _h : i < (j : ℕ) then U ⟨i, hi⟩ j * backSubstAux U b j.1 j.2 else 0) /
    U ⟨i, hi⟩ ⟨i, hi⟩
termination_by C - i
decreasing_by omega

noncomputable def forwardSubst (L : Matrix (Fin C) (Fin C) ℝ) (b : Fin C → ℝ) :
    Fin C → ℝ :=
  fun i => forwardSubstAux L b i.1 i.2

noncomputable def backSubst (U : Matrix (Fin C) (Fin C) ℝ) (b : Fin C → ℝ) :
    Fin C → ℝ :=
  fun i => backSubstAux U b i.1 i.2

/-- The unit lower triangular factor packed in the strictly lower part of a
matrix, as read by lu_solve. -/
def unpackL (A : Matrix (Fin C) (Fin C) ℝ) : Matrix (Fin C) (Fin C) ℝ :=
  Matrix.of fun i j => if (j : ℕ) < (i : ℕ) then A i j else if i = j then 1 else 0

/-- The upper triangular factor packed in the upper part (diagonal included)
of a matrix, as read by lu_solve. -/
def unpackU (A : Matrix (Fin C) (Fin C) ℝ) : Matrix (Fin C) (Fin C) ℝ :=
  Matrix.of fun i j => if (i : ℕ) ≤ (j : ℕ) then A i j else 0

/-- Semantics of torch.lu_solve on one right-hand side. -/
noncomputable def luSolveVec (A : Matrix (Fin C) (Fin C) ℝ) (σ : Equiv.Perm (Fin C))
    (y : Fin C → ℝ) : Fin C → ℝ :=
  backSubst (unpackU A) (forwardSubst (unpackL A) (fun i => y (σ⁻¹ i)))

theorem forwardSubst_mulVec (L : Matrix (Fin C) (Fin C) ℝ)
    (hL : L.BlockTriangular OrderDual.toDual) (hdiag : ∀ i, L i i = 1)
    (x : Fin C → ℝ) : forwardSubst L (L.mulVec x) = x := by
  have main : ∀ i (hi : i < C), forwardSubstAux L (L.mulVec x) i hi = x ⟨i, hi⟩ := by
    intro i
    induction i using Nat.strong_induction_on with
    | _ i IH =>
      intro hi
      rw [forwardSubstAux]
      have hsum : ∀ j : Fin C,
          (if _h : (j : ℕ) < i then L ⟨i, hi⟩ j * forwardSubstAux L (L.mulVec x) j.1 j.2 else 0)
            = if (j : ℕ) < i then L ⟨i, hi⟩ j * x j else 0 := by
        intro j
        by_cases h : (j : ℕ) < i
        · simp [h, IH j.1 h j.2]
        · simp [h]
      rw [Finset.sum_congr rfl fun j _ => hsum j]
      have hmv : L.mulVec x ⟨i, hi⟩ = ∑ j : Fin C, L ⟨i, hi⟩ j * x j := by
        simp [Matrix.mulVec, Matrix.dotProduct]
      rw [hmv, ← Finset.sum_sub_distrib, Finset.sum_eq_single (⟨i, hi⟩ : Fin C)]
      · simp [hdiag]
      · intro j _ hne
        by_cases h : (j : ℕ) < i
        · simp [h]
        · have hij : (⟨i, hi⟩ : Fin C) < j := by
            refine lt_of_le_of_ne ?_ (Ne.symm hne)
            exact Fin.le_def.mpr (Nat.not_lt.mp h)
          have hz : L ⟨i, hi⟩ j = 0 := hL hij
          simp [h, hz]
      · intro habs
        exact absurd (Finset.mem_univ _) habs
  funext i
  exact main i.1 i.2

theorem backSubst_mulVec (U : Matrix (Fin C) (Fin C) ℝ)
    (hU : U.BlockTriangular id) (hdiag : ∀ i, U i i ≠ 0)
    (x : Fin C → ℝ) : backSubst U (U.mulVec x) = x := by
  have main : ∀ g i (hi : i < C), C - i ≤ g →
      backSubstAux U (U.mulVec x) i hi = x ⟨i, hi⟩ := by
    intro g
    induction g with
    | zero => intro i hi h; omega
    | succ g IH =>
      intro i hi hg
      rw [backSubstAux]
      have hsum : ∀ j : Fin C,
          (if _h : i < (j : ℕ) then U ⟨i, hi⟩ j * backSubstAux U (U.mulVec x) j.1 j.2 else 0)
            = if i < (j : ℕ) then U ⟨i, hi⟩ j * x j else 0 := by
        intro j
        by_cases h : i < (j : ℕ)
        · have hsz : C - (j : ℕ) ≤ g := by omega
          simp [h, IH j.1 j.2 hsz]
        · simp [h]
      rw [Finset.sum_congr rfl fun j _ => hsum j]
      have hmv : U.mulVec x ⟨i, hi⟩ = ∑ j : Fin C, U ⟨i, hi⟩ j * x j := by
        simp [Matrix.mulVec, Matrix.dotProduct]
      rw [hmv, ← Finset.sum_sub_distrib, Finset.sum_eq_single (⟨i, hi⟩ : Fin C)]
      · rw [if_neg (lt_irrefl i), sub_zero, mul_comm, mul_div_assoc,
          div_self (hdiag _), mul_one]
      · intro j _ hne
        by_cases h : i < (j : ℕ)
        · simp [h]
        · have hij : j < (⟨i, hi⟩ : Fin C) := by
            refine lt_of_le_of_ne ?_ hne
            exact Fin.le_def.mpr (Nat.not_lt.mp h)
          have hz : U ⟨i, hi⟩ j = 0 := hU hij
          simp [h, hz]
      · intro habs
        exact absurd (Finset.mem_univ _) habs
  funext i
  exact main (C - i.1) i.1 i.2 le_rfl

/-! ## The packed factor used by InvertibleConv1x1.backward -/

/-- LU = self.L * self.L_mask + self.U * self.U_mask + diag(sign_s * exp(log_s))
(backward, lines 54-55). -/
noncomputable def luPacked (m : InvConv1x1 C) : Matrix (Fin C) (Fin C) ℝ :=
  Matrix.of fun i j =>
    m.L i j * m.Lmask i j + m.U i j * m.Umask i j + Matrix.diagonal (diagS m) i j

theorem unpackL_luPacked (m : InvConv1x1 C) (hm : WellFormed m) :
    unpackL (luPacked m) = effL m := by
  funext i j
  rcases lt_trichotomy (j : ℕ) (i : ℕ) with h | h | h
  · have hne : ¬ i = j := fun he => absurd (he ▸ h) (lt_irrefl _)
    have hne2 : ¬ (i : ℕ) < (j : ℕ) := Nat.not_lt.mpr h.le
    have hf : j < i := Fin.lt_def.mpr h
    have hf2 : ¬ i < j := fun hc => absurd (Fin.lt_def.mp hc) hne2
    simp [unpackL, luPacked, effL, hm.2.2.1, hm.2.2.2.1, hm.2.1, lMask, uMask,
      Matrix.one_apply, Matrix.diagonal_apply, h, hne, hne2, hf, hf2]
  · have he : i = j := Fin.ext h.symm
    simp [unpackL, luPacked, effL, hm.2.2.1, hm.2.1, lMask, Matrix.one_apply, he]
  · have hne : ¬ i = j := fun he => absurd (he ▸ h) (lt_irrefl _)
    have hne2 : ¬ (j : ℕ) < (i : ℕ) := Nat.not_lt.mpr h.le
    have hf2 : ¬ j < i := fun hc => absurd (Fin.lt_def.mp hc) hne2
    simp [unpackL, effL, hm.2.2.1, hm.2.1, lMask, Matrix.one_apply, hne, hne2, hf2]

theorem unpackU_luPacked (m : InvConv1x1 C) (hm : WellFormed m) :
    unpackU (luPacked m) = effU m := by
  funext i j
  rcases lt_trichotomy (i : ℕ) (j : ℕ) with h | h | h
  · have hne : ¬ i = j := fun he => absurd (he ▸ h) (lt_irrefl _)
    have hne2 : ¬ (j : ℕ) < (i : ℕ) := Nat.not_lt.mpr h.le
    have hf : i < j := Fin.lt_def.mpr h
    have hf2 : ¬ j < i := fun hc => absurd (Fin.lt_def.mp hc) hne2
    simp [unpackU, luPacked, effU, hm.2.2.1, hm.2.2.2.1, lMask, uMask,
      Matrix.diagonal_apply, h, h.le, hne, hne2, hf, hf2]
  · have he : i = j := Fin.ext h
    have hii : ¬ (i : ℕ) < (i : ℕ) := lt_irrefl _
    simp [unpackU, luPacked, effU, hm.2.2.1, hm.2.2.2.1, lMask, uMask,
      Matrix.diagonal_apply, he, hii]
  · have hne : ¬ i = j := fun he => absurd (he ▸ h) (lt_irrefl _)
    have hne2 : ¬ (i : ℕ) ≤ (j : ℕ) := Nat.not_le.mpr h
    have hf : j < i := Fin.lt_def.mpr h
    have hf2 : ¬ i < j := fun hc => absurd (Fin.lt_def.mp hc) (Nat.not_lt.mpr h.le)
    simp [unpackU, luPacked, effU, hm.2.2.1, hm.2.2.2.1, lMask, uMask,
      Matrix.diagonal_apply, hne, hne2, hf, hf2, Nat.not_lt.mpr h.le]

theorem permMatrix_mulVec (σ : Equiv.Perm (Fin C)) (v : Fin C → ℝ) :
    (σ.permMatrix ℝ).mulVec v = fun i => v (σ i) := by
  funext i
  simp [Matrix.mulVec, Matrix.dotProduct, PEquiv.toMatrix_apply, Equiv.toPEquiv_apply,
    Option.mem_def, eq_comm]

/-! ## InvertibleConv1x1 forward and backward on rank-2 batches -/

/-- InvertibleConv1x1.forward (lines 40-50) on a rank-2 batch of shape
(B, C): z.view(B, C, -1) has a single trailing position per channel, so
torch.matmul(W, z) is W.mulVec per sample, and
log_det_jacobians += torch.sum(log_s) adds the scalar to every entry. -/
noncomputable def convForward {B : ℕ} (m : InvConv1x1 C)
    (z : Fin B → Fin C → ℝ) (ld : Fin B → ℝ) :
    (Fin B → Fin C → ℝ) × (Fin B → ℝ) :=
  (fun b => (Wmat m).mulVec (z b), fun b => ld b + ∑ i, m.logS i)

/-- InvertibleConv1x1.backward (lines 52-60) on a rank-2 batch:
y.unsqueeze(-1) has shape (B, C, 1); torch.lu_solve solves (P L U) x = y
per sample from the packed factor LU and the stored pivots;
log_det_jacobians -= torch.sum(log_s). -/
noncomputable def convBackward {B : ℕ} (m : InvConv1x1 C)
    (y : Fin B → Fin C → ℝ) (ld : Fin B → ℝ) :
    (Fin B → Fin C → ℝ) × (Fin B → ℝ) :=
  (fun b => luSolveVec (luPacked m) m.pivots (y b), fun b => ld b - ∑ i, m.logS i)

theorem Wmat_mulVec_factor (m : InvConv1x1 C) (hm : WellFormed m) (v : Fin C → ℝ) :
    (Wmat m).mulVec v =
      (m.pivots.permMatrix ℝ).mulVec ((effL m).mulVec ((effU m).mulVec v)) := by
  rw [Wmat, hm.1, ← Matrix.mulVec_mulVec, ← Matrix.mulVec_mulVec]

theorem luSolveVec_Wmat_mulVec (m : InvConv1x1 C) (hm : WellFormed m)
    (v : Fin C → ℝ) :
    luSolveVec (luPacked m) m.pivots ((Wmat m).mulVec v) = v := by
  rw [luSolveVec, unpackL_luPacked m hm, unpackU_luPacked m hm,
    Wmat_mulVec_factor m hm, permMatrix_mulVec]
  have hperm : (fun i => (effL m).mulVec ((effU m).mulVec v) (m.pivots (m.pivots⁻¹ i)))
      = (effL m).mulVec ((effU m).mulVec v) := by
    funext i
    rw [Equiv.Perm.apply_inv_self]
  rw [hperm, forwardSubst_mulVec (effL m) (effL_lower m hm) (effL_diag m hm),
    backSubst_mulVec (effU m) (effU_upper m hm)
      (fun i => (effU_diag m hm i).symm ▸ diagS_ne_zero m hm i)]

/-- C3: the log absolute determinant of the effective matrix W equals the
sum of log_s: log |det (P * L * U)| = sum log_s, because P is a permutation
matrix, the lower factor has unit diagonal, and the upper factor has
diagonal sign_s * exp(log_s). -/
theorem logabsdet_Wmat_eq_sum_logS (m : InvConv1x1 C) (hm : WellFormed m) :
    Real.log |(Wmat m).det| = ∑ i, m.logS i := by
  rw [abs_det_Wmat m hm, Real.log_exp]

/-- C4: InvertibleConv1x1.backward is the exact inverse linear map of
InvertibleConv1x1.forward on rank-2 batches: the additively packed matrix
LU used by backward unpacks, together with the stored pivot sequence, to
exactly the factorization P L U that forward multiplies by, so the pivoted
triangular solve recovers every input without forming the inverse of W. -/
theorem conv_backward_forward_roundtrip {B : ℕ} (m : InvConv1x1 C) (hm : WellFormed m)
    (x : Fin B → Fin C → ℝ) (ld ld2 : Fin B → ℝ) :
    (convBackward m (convForward m x ld).1 ld2).1 = x := by
  funext b
  exact luSolveVec_Wmat_mulVec m hm (x b)

/-- A concrete well formed module at C = 1: identity permutation, zero
trainable factors, log_s = 0, sign_s = 1. -/
def mW : InvConv1x1 1 where
  P := (1 : Equiv.Perm (Fin 1)).permMatrix ℝ
  pivots := 1
  L := 0
  U := 0
  Ident := 1
  Lmask := lMask 1
  Umask := uMask 1
  logS := fun _ => 0
  signS := fun _ => 1

theorem mW_wellFormed : WellFormed mW :=
  ⟨rfl, rfl, rfl, rfl, fun _ => Or.inl rfl⟩

/-- Witness for C4 at C = 1, B = 1: the well formed module mW recovers the
zero batch through backward after forward. -/
theorem conv_backward_forward_roundtrip_witness :
    WellFormed mW ∧
      (convBackward mW
          (convForward mW (fun _ _ => (0 : ℝ)) (fun (_ : Fin 1) => (0 : ℝ))).1
          (fun (_ : Fin 1) => (0 : ℝ))).1 = fun _ _ => (0 : ℝ) :=
  ⟨mW_wellFormed,
    conv_backward_forward_roundtrip mW mW_wellFormed (fun _ _ => (0 : ℝ)) _ _⟩

/-- Witness for C3 at C = 1: with log_s = 0 and sign_s = 1 the effective
matrix of mW has log absolute determinant equal to the sum of log_s. -/
theorem logabsdet_Wmat_eq_sum_logS_witness :
    WellFormed mW ∧ Real.log |(Wmat mW).det| = ∑ i, mW.logS i :=
  ⟨mW_wellFormed, logabsdet_Wmat_eq_sum_logS mW mW_wellFormed⟩

/-- C8: for every assignment of the trainable tensors L, U, log_s of a well
formed module, the reconstructed effective matrix W is invertible: the
reconstructed diagonal sign_s * exp(log_s) is entrywise nonzero, the
triangular factors have nonzero determinant and P is a permutation, so the
determinant of W is nonzero. -/
theorem Wmat_isUnit (m : InvConv1x1 C) (hm : WellFormed m) : IsUnit (Wmat m) := by
  rw [Matrix.isUnit_iff_isUnit_det]
  refine isUnit_iff_ne_zero.mpr fun h0 => ?_
  have h := abs_det_Wmat m hm
  rw [h0, abs_zero] at h
  exact Real.exp_ne_zero _ h.symm

/-- Witness for C8 at C = 1. -/
theorem Wmat_isUnit_witness : WellFormed mW ∧ IsUnit (Wmat mW) :=
  ⟨mW_wellFormed, Wmat_isUnit mW mW_wellFormed⟩

/-! ## Spatial inputs: reshape semantics of forward (C6, C7) -/

theorem fin_mul_w_pos {H W : ℕ} (s : Fin (H * W)) : 0 < W := by
  rcases Nat.eq_zero_or_pos W with h0 | h0
  · subst h0
    exact absurd s.2 (by omega)
  · exact h0

/-- Row-major flattening of a spatial grid position, as z.view(B, C, -1)
lays out the trailing dimensions. -/
def flatIdx {H W : ℕ} (h : Fin H) (w : Fin W) : Fin (H * W) :=
  ⟨h.1 * W + w.1, by
    have hlt : h.1 * W + w.1 < (h.1 + 1) * W := by
      rw [Nat.succ_mul]
      exact Nat.add_lt_add_left w.2 _
    exact lt_of_lt_of_le hlt (Nat.mul_le_mul h.2 (le_refl W))⟩

/-- Row index recovered from a flattened spatial position. -/
def spatRow {H W : ℕ} (s : Fin (H * W)) : Fin H :=
  ⟨s.1 / W, (Nat.div_lt_iff_lt_mul (fin_mul_w_pos s)).mpr s.2⟩

/-- Column index recovered from a flattened spatial position. -/
def spatCol {H W : ℕ} (s : Fin (H * W)) : Fin W :=
  ⟨s.1 % W, Nat.mod_lt _ (fin_mul_w_pos s)⟩

/-- InvertibleConv1x1.forward (lines 45-47) on a rank-4 batch (B, C, H, W):
z.view(B, C, -1) flattens the spatial grid row-major, torch.matmul(W, z)
multiplies each sample as a (C, C) by (C, H*W) matrix product, and
.view(z.size()) restores the original shape. -/
noncomputable def convForwardSpatial {B H Wd : ℕ} (m : InvConv1x1 C)
    (z : Fin B → Fin C → Fin H → Fin Wd → ℝ) :
    Fin B → Fin C → Fin H → Fin Wd → ℝ :=
  fun b c h w =>
    (Wmat m * Matrix.of fun c2 (s : Fin (H * Wd)) => z b c2 (spatRow s) (spatCol s))
      c (flatIdx h w)

/-- InvertibleConv1x1.forward on a rank-4 batch together with the
log-determinant update log_det_jacobians += torch.sum(log_s) (line 48). -/
noncomputable def convForwardSpatialFull {B H Wd : ℕ} (m : InvConv1x1 C)
    (z : Fin B → Fin C → Fin H → Fin Wd → ℝ) (ld : Fin B → ℝ) :
    (Fin B → Fin C → Fin H → Fin Wd → ℝ) × (Fin B → ℝ) :=
  (convForwardSpatial m z, fun b => ld b + ∑ i, m.logS i)

theorem spatRow_flatIdx {H W : ℕ} (h : Fin H) (w : Fin W) :
    spatRow (flatIdx h w) = h := by
  apply Fin.ext
  show (h.1 * W + w.1) / W = h.1
  have hW : 0 < W := lt_of_le_of_lt (Nat.zero_le _) w.2
  rw [Nat.mul_comm, Nat.mul_add_div hW, Nat.div_eq_of_lt w.2, Nat.add_zero]

theorem spatCol_flatIdx {H W : ℕ} (h : Fin H) (w : Fin W) :
    spatCol (flatIdx h w) = w := by
  apply Fin.ext
  show (h.1 * W + w.1) % W = w.1
  rw [Nat.mul_comm h.1 W, Nat.mul_add_mod, Nat.mod_eq_of_lt w.2]

/-- C6: the forward pass applies W as a per-sample linear map across the
channel dimension only: entry (b, i, h, w) of the output is the W-image of
the channel column of sample b at the unchanged spatial position (h, w),
and the output batch has exactly the input batch shape. -/
theorem convForwardSpatial_channel_only {B H Wd : ℕ} (m : InvConv1x1 C)
    (z : Fin B → Fin C → Fin H → Fin Wd → ℝ) (b : Fin B) (i : Fin C)
    (h : Fin H) (w : Fin Wd) :
    convForwardSpatial m z b i h w = (Wmat m).mulVec (fun j => z b j h w) i := by
  simp [convForwardSpatial, Matrix.mul_apply, Matrix.mulVec, Matrix.dotProduct,
    spatRow_flatIdx, spatCol_flatIdx]

/-- C7: a forward call adds the scalar sum(log_s) exactly once to every
entry of the accumulator, the same amount for every sample and independent
of the spatial extent; the corresponding backward call subtracts exactly
the same scalar once. -/
theorem conv_logdet_contribution {B H Wd : ℕ} (m : InvConv1x1 C)
    (z : Fin B → Fin C → Fin H → Fin Wd → ℝ) (ld : Fin B → ℝ)
    (y : Fin B → Fin C → ℝ) (ld2 : Fin B → ℝ) (b : Fin B) :
    (convForwardSpatialFull m z ld).2 b - ld b = ∑ i, m.logS i ∧
      (convBackward m y ld2).2 b - ld2 b = -(∑ i, m.logS i) := by
  constructor <;> simp [convForwardSpatialFull, convBackward]

/-! ## The Glow composition engine (src/flows/glow.py, class Glow)

Actnorm and AffineCoupling live outside src/flows/glow.py; the pipeline
consumes them only through the bijective-layer interface
forward(state, logdet) -> (state, logdet), inverse(state, logdet) ->
(state, logdet). A layer is therefore modelled as an abstract pair of
functions on a state type together with a per-sample accumulator. -/

/-- Modelled from the spec: Actnorm and AffineCoupling are defined in
modules of this repository that are not under src/, and the spec consumes
them only through the BijectiveLayer capability, a transform exposing
forward(state, logdet) -> (state, logdet) and inverse(state, logdet) ->
(state, logdet). A sub-layer is therefore a pair of such functions. -/
structure BijLayer (α : Type*) (B : ℕ) where
  fwd : α → (Fin B → ℝ) → α × (Fin B → ℝ)
  bwd : α → (Fin B → ℝ) → α × (Fin B → ℝ)

/-- The Glow pipeline state: n stages, each holding an actnorm, an
invertible linear layer and a coupling layer (Glow.__init__, lines 70-81). -/
structure Glow (α : Type*) (B : ℕ) where
  n : ℕ
  actnorms : Fin n → BijLayer α B
  linears : Fin n → BijLayer α B
  couplings : Fin n → BijLayer α B

variable {α : Type*} {B : ℕ}

/-- One stage of Glow.forward (lines 86-94): actnorm, then invertible
linear, then coupling, each updating (state, logdet). -/
def stageFwd (g : Glow α B) (i : Fin g.n) (p : α × (Fin B → ℝ)) : α × (Fin B → ℝ) :=
  let p1 := (g.actnorms i).fwd p.1 p.2
  let p2 := (g.linears i).fwd p1.1 p1.2
  (g.couplings i).fwd p2.1 p2.2

/-- One stage of Glow.backward (lines 101-109): coupling inverse, then
invertible linear inverse, then actnorm inverse. -/
def stageBwd (g : Glow α B) (i : Fin g.n) (p : α × (Fin B → ℝ)) : α × (Fin B → ℝ) :=
  let p1 := (g.couplings i).bwd p.1 p.2
  let p2 := (g.linears i).bwd p1.1 p1.2
  (g.actnorms i).bwd p2.1 p2.2

/-- The loop of Glow.forward, run over an explicit list of stage indices. -/
def runFwd (g : Glow α B) : List (Fin g.n) → α × (Fin B → ℝ) → α × (Fin B → ℝ)
  | [], p => p
  | i :: is, p => runFwd g is (stageFwd g i p)

/-- The loop of Glow.backward, run over an explicit list of stage indices. -/
def runBwd (g : Glow α B) : List (Fin g.n) → α × (Fin B → ℝ) → α × (Fin B → ℝ)
  | [], p => p
  | i :: is, p => runBwd g is (stageBwd g i p)

/-- Glow.forward (lines 83-96): logdet starts at zero per sample and the
stages run in declared order 0 .. n-1. -/
def Glow.forward (g : Glow α B) (y : α) : α × (Fin B → ℝ) :=
  runFwd g (List.finRange g.n) (y, fun _ => 0)

/-- Glow.backward (lines 98-111): logdet starts at zero per sample and the
stages run in reversed(range(n)) order. -/
def Glow.backward (g : Glow α B) (z : α) : α × (Fin B → ℝ) :=
  runBwd g (List.finRange g.n).reverse (z, fun _ => 0)

/-- The state map of a layer: the state part of forward, which does not
depend on the incoming accumulator for a contract-satisfying layer. -/
def fwdMap (l : BijLayer α B) (x : α) : α := (l.fwd x fun _ => 0).1

/-- The per-sample logdet contribution of the forward direction. -/
def fwdLd (l : BijLayer α B) (x : α) : Fin B → ℝ := (l.fwd x fun _ => 0).2

def bwdMap (l : BijLayer α B) (y : α) : α := (l.bwd y fun _ => 0).1

def bwdLd (l : BijLayer α B) (y : α) : Fin B → ℝ := (l.bwd y fun _ => 0).2

/-- Modelled from the spec: the BijectiveLayer contract. Each direction
transforms the state independently of the incoming accumulator and adds
its own per-sample contribution to it, the backward state map inverts the
forward state map, and the two contributions cancel, so that
inverse(forward(x, 0)) == (x, 0) and logdet is decremented by the same
contribution the forward direction added. -/
def Contract (l : BijLayer α B) : Prop :=
  (∀ x d, l.fwd x d = (fwdMap l x, fun b => d b + fwdLd l x b)) ∧
  (∀ y d, l.bwd y d = (bwdMap l y, fun b => d b + bwdLd l y b)) ∧
  (∀ x, bwdMap l (fwdMap l x) = x) ∧
  (∀ x b, fwdLd l x b + bwdLd l (fwdMap l x) b = 0)

/-- A pair of transformations of (state, accumulator) such that the second
undoes the first: both have the contract shape and the composite state map
and contributions cancel. -/
def InvPair (F Bw : α × (Fin B → ℝ) → α × (Fin B → ℝ)) : Prop :=
  ∃ (f : α → α) (c : α → Fin B → ℝ) (fi : α → α) (ci : α → Fin B → ℝ),
    (∀ x d, F (x, d) = (f x, fun b => d b + c x b)) ∧
    (∀ y d, Bw (y, d) = (fi y, fun b => d b + ci y b)) ∧
    (∀ x, fi (f x) = x) ∧
    (∀ x b, c x b + ci (f x) b = 0)

theorem Contract.invPair {l : BijLayer α B} (h : Contract l) :
    InvPair (fun p => l.fwd p.1 p.2) (fun p => l.bwd p.1 p.2) :=
  ⟨fwdMap l, fwdLd l, bwdMap l, bwdLd l, fun x d => h.1 x d, fun y d => h.2.1 y d,
    h.2.2.1, h.2.2.2⟩

theorem InvPair.comp {F Bw F2 Bw2 : α × (Fin B → ℝ) → α × (Fin B → ℝ)}
    (h1 : InvPair F Bw) (h2 : InvPair F2 Bw2) :
    InvPair (fun p => F2 (F p)) (fun p => Bw (Bw2 p)) := by
  obtain ⟨f, c, fi, ci, hF, hB, hinv, hc⟩ := h1
  obtain ⟨f2, c2, fi2, ci2, hF2, hB2, hinv2, hc2⟩ := h2
  refine ⟨fun x => f2 (f x), fun x b => c x b + c2 (f x) b,
    fun y => fi (fi2 y), fun y b => ci2 y b + ci (fi2 y) b, ?_, ?_, ?_, ?_⟩
  · intro x d
    show F2 (F (x, d)) = _
    rw [hF, hF2]
    simp [add_assoc]
  · intro y d
    show Bw (Bw2 (y, d)) = _
    rw [hB2, hB]
    simp [add_assoc]
  · intro x
    show fi (fi2 (f2 (f x))) = x
    rw [hinv2, hinv]
  · intro x b
    show c x b + c2 (f x) b + (ci2 (f2 (f x)) b + ci (fi2 (f2 (f x))) b) = 0
    rw [hinv2]
    have h1 := hc x b
    have h2 := hc2 (f x) b
    linarith

theorem InvPair.id : InvPair (fun p : α × (Fin B → ℝ) => p) (fun p => p) :=
  ⟨fun x => x, fun _ _ => 0, fun y => y, fun _ _ => 0,
    fun x d => by simp, fun y d => by simp, fun _ => rfl, fun _ _ => by simp⟩

theorem stage_invPair (g : Glow α B) (i : Fin g.n)
    (hA : Contract (g.actnorms i)) (hL : Contract (g.linears i))
    (hC : Contract (g.couplings i)) :
    InvPair (stageFwd g i) (stageBwd g i) := by
  have h := (hA.invPair.comp hL.invPair).comp hC.invPair
  have hF : ∀ p, stageFwd g i p =
      (g.couplings i).fwd ((g.linears i).fwd ((g.actnorms i).fwd p.1 p.2).1
        ((g.actnorms i).fwd p.1 p.2).2).1
      ((g.linears i).fwd ((g.actnorms i).fwd p.1 p.2).1
        ((g.actnorms i).fwd p.1 p.2).2).2 := fun p => rfl
  obtain ⟨f, c, fi, ci, h1, h2, h3, h4⟩ := h
  exact ⟨f, c, fi, ci, fun x d => h1 x d, fun y d => h2 y d, h3, h4⟩

theorem runFwd_append (g : Glow α B) (l1 l2 : List (Fin g.n)) (p : α × (Fin B → ℝ)) :
    runFwd g (l1 ++ l2) p = runFwd g l2 (runFwd g l1 p) := by
  induction l1 generalizing p with
  | nil => rfl
  | cons i is IH => simp [runFwd, IH]

theorem runBwd_append (g : Glow α B) (l1 l2 : List (Fin g.n)) (p : α × (Fin B → ℝ)) :
    runBwd g (l1 ++ l2) p = runBwd g l2 (runBwd g l1 p) := by
  induction l1 generalizing p with
  | nil => rfl
  | cons i is IH => simp [runBwd, IH]

theorem run_invPair (g : Glow α B) (l : List (Fin g.n))
    (h : ∀ i ∈ l, InvPair (stageFwd g i) (stageBwd g i)) :
    InvPair (runFwd g l) (runBwd g l.reverse) := by
  induction l with
  | nil => exact InvPair.id
  | cons i is IH =>
    have hi := h i (List.mem_cons_self i is)
    have his := IH fun j hj => h j (List.mem_cons_of_mem i hj)
    have hcomp := hi.comp his
    obtain ⟨f, c, fi, ci, h1, h2, h3, h4⟩ := hcomp
    refine ⟨f, c, fi, ci, fun x d => ?_, fun y d => ?_, h3, h4⟩
    · show runFwd g (i :: is) (x, d) = _
      rw [runFwd]
      exact h1 x d
    · show runBwd g (i :: is).reverse (y, d) = _
      rw [List.reverse_cons, runBwd_append]
      exact h2 y d

/-- C1: for a pipeline whose sub-layers all satisfy the bijective-layer
contract, running backward on the state produced by forward reconstructs
the input batch exactly. -/
theorem glow_roundtrip_state (g : Glow α B)
    (hA : ∀ i, Contract (g.actnorms i)) (hL : ∀ i, Contract (g.linears i))
    (hC : ∀ i, Contract (g.couplings i)) (y : α) :
    (g.backward (g.forward y).1).1 = y := by
  have h := run_invPair g (List.finRange g.n)
    (fun i _ => stage_invPair g i (hA i) (hL i) (hC i))
  obtain ⟨f, c, fi, ci, h1, h2, h3, h4⟩ := h
  rw [Glow.forward, Glow.backward, h1, h2, h3]

/-- C2: for a pipeline whose sub-layers all satisfy the bijective-layer
contract, the per-sample log-determinant of the forward pass and that of
the backward pass on the forward output cancel exactly, both accumulators
starting from zero. -/
theorem glow_roundtrip_logdet (g : Glow α B)
    (hA : ∀ i, Contract (g.actnorms i)) (hL : ∀ i, Contract (g.linears i))
    (hC : ∀ i, Contract (g.couplings i)) (y : α) (b : Fin B) :
    (g.forward y).2 b + (g.backward (g.forward y).1).2 b = 0 := by
  have h := run_invPair g (List.finRange g.n)
    (fun i _ => stage_invPair g i (hA i) (hL i) (hC i))
  obtain ⟨f, c, fi, ci, h1, h2, h3, h4⟩ := h
  rw [Glow.forward, Glow.backward, h1, h2]
  have := h4 y b
  simp only
  linarith

/-- The identity sub-layer, used as a concrete contract-satisfying layer. -/
def idLayer : BijLayer α B := ⟨fun x d => (x, d), fun x d => (x, d)⟩

theorem idLayer_contract : Contract (idLayer : BijLayer α B) := by
  refine ⟨fun x d => ?_, fun y d => ?_, fun x => rfl, fun x b => ?_⟩
  · show (x, d) = (x, fun b => d b + 0)
    simp
  · show (y, d) = (y, fun b => d b + 0)
    simp
  · show (0 : ℝ) + 0 = 0
    simp

/-- A concrete one-stage pipeline of identity layers over state ℝ, batch 1. -/
def gW : Glow ℝ 1 :=
  ⟨1, fun _ => idLayer, fun _ => idLayer, fun _ => idLayer⟩

/-- Witness for C1: the identity-layer pipeline satisfies the contract and
round-trips the input 37. -/
theorem glow_roundtrip_state_witness :
    (∀ i, Contract (gW.actnorms i)) ∧ (gW.backward (gW.forward 37).1).1 = 37 :=
  ⟨fun _ => idLayer_contract,
    glow_roundtrip_state gW (fun _ => idLayer_contract) (fun _ => idLayer_contract)
      (fun _ => idLayer_contract) 37⟩

/-- Witness for C2: on the identity-layer pipeline the two accumulators
cancel at sample 0. -/
theorem glow_roundtrip_logdet_witness :
    (∀ i, Contract (gW.linears i)) ∧
      (gW.forward 5).2 0 + (gW.backward (gW.forward 5).1).2 0 = 0 :=
  ⟨fun _ => idLayer_contract,
    glow_roundtrip_logdet gW (fun _ => idLayer_contract) (fun _ => idLayer_contract)
      (fun _ => idLayer_contract) 5 0⟩

/-! ## C5: traversal order of Glow.backward -/

/-- Application of a list of layers in the forward direction. -/
def applyFwd : List (BijLayer α B) → α × (Fin B → ℝ) → α × (Fin B → ℝ)
  | [], p => p
  | l :: ls, p => applyFwd ls (l.fwd p.1 p.2)

/-- Application of a list of layers in the backward direction. -/
def applyBwd : List (BijLayer α B) → α × (Fin B → ℝ) → α × (Fin B → ℝ)
  | [], p => p
  | l :: ls, p => applyBwd ls (l.bwd p.1 p.2)

/-- The flat sequence of sub-layers traversed by Glow.forward: for each
stage in declared order, actnorm, then invertible linear, then coupling. -/
def layerSeq (g : Glow α B) : List (BijLayer α B) :=
  (List.finRange g.n).flatMap fun i => [g.actnorms i, g.linears i, g.couplings i]

theorem applyFwd_append (l1 l2 : List (BijLayer α B)) (p : α × (Fin B → ℝ)) :
    applyFwd (l1 ++ l2) p = applyFwd l2 (applyFwd l1 p) := by
  induction l1 generalizing p with
  | nil => rfl
  | cons l ls IH => simp [applyFwd, IH]

theorem applyBwd_append (l1 l2 : List (BijLayer α B)) (p : α × (Fin B → ℝ)) :
    applyBwd (l1 ++ l2) p = applyBwd l2 (applyBwd l1 p) := by
  induction l1 generalizing p with
  | nil => rfl
  | cons l ls IH => simp [applyBwd, IH]

theorem runFwd_eq_applyFwd (g : Glow α B) (l : List (Fin g.n)) (p : α × (Fin B → ℝ)) :
    runFwd g l p =
      applyFwd (l.flatMap fun i => [g.actnorms i, g.linears i, g.couplings i]) p := by
  induction l generalizing p with
  | nil => rfl
  | cons i is IH =>
    rw [List.flatMap_cons, applyFwd_append, runFwd, IH]
    rfl

theorem runBwd_eq_applyBwd (g : Glow α B) (l : List (Fin g.n)) (p : α × (Fin B → ℝ)) :
    runBwd g (l.reverse) p =
      applyBwd ((l.flatMap fun i => [g.actnorms i, g.linears i, g.couplings i]).reverse)
        p := by
  induction l generalizing p with
  | nil => rfl
  | cons i is IH =>
    rw [List.reverse_cons, runBwd_append, List.flatMap_cons, List.reverse_append,
      applyBwd_append, IH]
    rfl

/-- C5: Glow.forward traverses the flat sub-layer sequence (actnorm,
linear, coupling per stage, stages in declared order) in the forward
direction, and Glow.backward traverses exactly the reverse of that
sequence in the backward direction: stages from index n-1 down to 0 and,
inside each stage, coupling inverse, then linear inverse, then actnorm
inverse. -/
theorem glow_backward_reverse_order (g : Glow α B) (y z : α) :
    g.forward y = applyFwd (layerSeq g) (y, fun _ => 0) ∧
      g.backward z = applyBwd (layerSeq g).reverse (z, fun _ => 0) :=
  ⟨runFwd_eq_applyFwd g (List.finRange g.n) _,
    runBwd_eq_applyBwd g (List.finRange g.n) _⟩

/-! ## C9: the frozen parameters across calls and optimizer updates -/

/-- The trainable tensors of InvertibleConv1x1: exactly the parameters
created with requires_grad=True. -/
structure Trainables (C : ℕ) where
  L : Matrix (Fin C) (Fin C) ℝ
  U : Matrix (Fin C) (Fin C) ℝ
  logS : Fin C → ℝ

/-- An optimizer step overwrites the requires_grad=True parameters L, U,
log_s and nothing else. -/
def updateTrainables (m : InvConv1x1 C) (t : Trainables C) : InvConv1x1 C :=
  { m with L := t.L, U := t.U, logS := t.logS }

/-- forward as a transformer of the module state: the method body (lines
40-50) reads P, L, U, I, the masks, log_s and sign_s but assigns no field
of self, so the module state it leaves behind is the one it received. -/
noncomputable def convForwardCall {B : ℕ} (m : InvConv1x1 C)
    (z : Fin B → Fin C → ℝ) (ld : Fin B → ℝ) :
    InvConv1x1 C × ((Fin B → Fin C → ℝ) × (Fin B → ℝ)) :=
  (m, convForward m z ld)

/-- backward as a transformer of the module state: the method body (lines
52-60) assigns no field of self. -/
noncomputable def convBackwardCall {B : ℕ} (m : InvConv1x1 C)
    (y : Fin B → Fin C → ℝ) (ld : Fin B → ℝ) :
    InvConv1x1 C × ((Fin B → Fin C → ℝ) × (Fin B → ℝ)) :=
  (m, convBackward m y ld)

/-- An event in the lifetime of a module after construction: a forward
call, a backward call, or an optimizer update of the trainable tensors. -/
inductive ConvOp (C : ℕ) where
  | fwdCall (B : ℕ) (z : Fin B → Fin C → ℝ) (ld : Fin B → ℝ)
  | bwdCall (B : ℕ) (y : Fin B → Fin C → ℝ) (ld : Fin B → ℝ)
  | optStep (t : Trainables C)

noncomputable def applyOp (m : InvConv1x1 C) : ConvOp C → InvConv1x1 C
  | ConvOp.fwdCall _ z ld => (convForwardCall m z ld).1
  | ConvOp.bwdCall _ y ld => (convBackwardCall m y ld).1
  | ConvOp.optStep t => updateTrainables m t

noncomputable def runOps (m : InvConv1x1 C) : List (ConvOp C) → InvConv1x1 C
  | [] => m
  | op :: ops => runOps (applyOp m op) ops

theorem applyOp_frozen (m : InvConv1x1 C) (op : ConvOp C) :
    (applyOp m op).P = m.P ∧ (applyOp m op).pivots = m.pivots ∧
      (applyOp m op).signS = m.signS ∧ (applyOp m op).Ident = m.Ident ∧
      (applyOp m op).Lmask = m.Lmask ∧ (applyOp m op).Umask = m.Umask := by
  cases op <;>
    exact ⟨rfl, rfl, rfl, rfl, rfl, rfl⟩

/-- C9: after any sequence of forward calls, backward calls and optimizer
updates of the trainable tensors L, U, log_s, the frozen parameters P, the
pivot sequence, sign_s, the stored identity and the two triangular masks
are all unchanged. -/
theorem frozen_params_unchanged (m : InvConv1x1 C) (ops : List (ConvOp C)) :
    (runOps m ops).P = m.P ∧ (runOps m ops).pivots = m.pivots ∧
      (runOps m ops).signS = m.signS ∧ (runOps m ops).Ident = m.Ident ∧
      (runOps m ops).Lmask = m.Lmask ∧ (runOps m ops).Umask = m.Umask := by
  induction ops generalizing m with
  | nil => exact ⟨rfl, rfl, rfl, rfl, rfl, rfl⟩
  | cons op ops IH =>
    obtain ⟨hP, hpiv, hs, hI, hLm, hUm⟩ := IH (applyOp m op)
    obtain ⟨gP, gpiv, gs, gI, gLm, gUm⟩ := applyOp_frozen m op
    exact ⟨hP.trans gP, hpiv.trans gpiv, hs.trans gs, hI.trans gI,
      hLm.trans gLm, hUm.trans gUm⟩

/-! ## C10: shape acceptance of backward versus forward

Shapes of torch tensors are modelled as lists of dimension sizes.
torch.lu_solve(b, LU, piv) requires b of shape batchB ++ [m, k], LU of
shape batchA ++ [m, m] with the same m, piv of shape batchA ++ [m], and
the batch parts must broadcast against each other. -/

/-- Right-aligned broadcast compatibility of two reversed batch-shape
lists: each aligned pair of sizes must be equal or one of them must be 1;
a missing dimension always broadcasts. -/
def broadcastableRev : List ℕ → List ℕ → Bool
  | [], _ => true
  | _, [] => true
  | a :: s1, b :: s2 => (a == b || a == 1 || b == 1) && broadcastableRev s1 s2

/-- The shape precondition of torch.lu_solve. -/
def luSolveShapeOk (bShape luShape pivShape : List ℕ) : Bool :=
  match bShape.reverse, luShape.reverse, pivShape.reverse with
  | _k :: mb :: batchB, m1 :: m2 :: batchA, mp :: batchP =>
    (m1 == m2) && (mb == m1) && (mp == m1) && (batchP == batchA) &&
      broadcastableRev batchB batchA
  | _, _, _ => false

/-- The shapes InvertibleConv1x1.backward (lines 56-57) hands to lu_solve
on an input of shape s: y.unsqueeze(-1) has shape s ++ [1],
LU.unsqueeze(0) has shape [1, C, C], pivots.unsqueeze(0) has shape [1, C]. -/
def backwardShapeOk (C : ℕ) (s : List ℕ) : Bool :=
  luSolveShapeOk (s ++ [1]) [1, C, C] [1, C]

/-- The shape precondition of InvertibleConv1x1.forward (lines 45-47) on an
input of shape s: z.view(z.size(0), z.size(1), -1) followed by
torch.matmul with the (C, C) matrix W requires a leading batch dimension
and a channel dimension equal to C; the trailing extent is flattened. -/
def forwardShapeOk (C : ℕ) (s : List ℕ) : Bool :=
  match s with
  | _B :: c :: _rest => c == C
  | _ => false

theorem broadcastableRev_nil (l : List ℕ) : broadcastableRev l [] = true := by
  cases l <;> rfl

theorem broadcastableRev_one (l : List ℕ) : broadcastableRev l [1] = true := by
  cases l with
  | nil => rfl
  | cons a s => simp [broadcastableRev, broadcastableRev_nil]

/-- Counterexample to C10 as stated: with C = 2 channels, the input shape
(1, 2, 2) carries an extra spatial dimension and is accepted by forward,
yet the shape requirements of the pivoted solve in backward are satisfied
as well, so the backward call does not fail on it. -/
theorem backward_accepts_a_spatial_input :
    forwardShapeOk 2 [1, 2, 2] = true ∧ backwardShapeOk 2 [1, 2, 2] = true := by
  exact ⟨rfl, rfl⟩

/-- C10 amended: backward appends a trailing singleton instead of
flattening, so the solve accepts exactly the inputs whose trailing
dimension equals the channel count C: every rank-2 batch (B, C) is
accepted, while an input with extra spatial dimensions is rejected unless
its last dimension happens to equal C; in particular forward accepts
spatial shapes that backward rejects, so the two domains are asymmetric. -/
theorem backwardShapeOk_characterization (C : ℕ) (s : List ℕ) :
    (backwardShapeOk C s = true ↔ s.getLast? = some C) ∧
      (∀ B, backwardShapeOk C [B, C] = true) ∧
      forwardShapeOk C [1, C, C + 1] = true ∧
      backwardShapeOk C [1, C, C + 1] = false := by
  refine ⟨?_, ?_, ?_, ?_⟩
  · induction s using List.reverseRecOn with
    | nil => simp [backwardShapeOk, luSolveShapeOk]
    | append_singleton l a _ =>
      simp [backwardShapeOk, luSolveShapeOk, List.reverse_append,
        broadcastableRev_one, List.getLast?_concat]
  · intro B
    simp [backwardShapeOk, luSolveShapeOk, broadcastableRev]
  · simp [forwardShapeOk]
  · simp [backwardShapeOk, luSolveShapeOk, List.reverse_append, Nat.succ_ne_self]

end GlowSpec
